import Mathlib

/-!
# ADS8684 fast readout: the interrupt-driven acquisition state machine

A shallow embedding of `adcISR`, of the run that `readArray` sets up and waits for, of
what `readArray` does to the transmit command register, and of `chanReg`
(`src/arduino/ads8684_fast_readout2/ads8684_array.h`), followed by the properties proved
about them.

Modelling conventions.
* `int` fields are `Int`; no step that succeeds can overflow one (see `adcISR`).
* `uint16_t` and `uint32_t` values are `Nat`, reduced `% 2 ^ 16` where the source narrows.
* The two `double` accumulators only ever receive integers, so they are carried as `Int`
  and every addition is followed by `roundDouble`, the rounding binary64 applies.
* An array access outside `adcData[maxpts]` or `mans[9]` has no defined result in C++;
  the tick that performs one returns `none`.
* The words received over the bus are a stream `rx : Nat → Nat`, `rx k` being what
  `SPI_REGS.RDR` holds on tick `k` of the run (tick `0` is the one taken in `adcStart`).
-/

namespace Ads8684

/-- Capacity of the sample buffer, `#define maxpts 32768`. -/
def maxpts : Nat := 32768

/-- States of the interrupt service routine, `typedef enum { ... } adcStates`. -/
inductive adcStates where
  | adcIdle
  | adcStart
  | adcRun
  deriving DecidableEq, Repr

/-- The global record shared by the interrupt routine and `readArray`. -/
@[ext]
structure adsGlobals where
  adcState : adcStates
  npts : Int
  lastpt : Int
  adcData : Nat → Nat
  mans : Nat → Nat
  nextman : Int
  adcSum : Int
  adcSum2 : Int

/-- What one tick does outside the global record: the word it puts in `SPI_REGS.TDR`
and, when it executes `adcData[npts] = result`, the index and the value of that write. -/
structure TickEffect where
  tdr : Nat
  store : Option (Nat × Nat)
  deriving DecidableEq, Repr

/-- Two's-complement value of a 32-bit `int` holding `x` modulo `2 ^ 32`: what the
32-bit multiply of the target leaves in a register. -/
def toInt32 (x : Int) : Int :=
  (x + 2147483648) % 4294967296 - 2147483648

/-- The expression `result*result`: both `uint16_t` operands are promoted to `int`
and multiplied in 32 bits. -/
def squareInt32 (result : Nat) : Int :=
  toInt32 ((result : Int) * (result : Int))

/-- Nearest integer with a 53-bit significand, ties to even: the value a binary64
`double` holds after an operation whose exact result is the integer `n`. -/
def roundDouble (n : Int) : Int :=
  let m := n.natAbs
  if m < 2 ^ 53 then n
  else
    let e := Nat.log2 m - 52
    let q := m / 2 ^ e
    let r := m % 2 ^ e
    let half := 2 ^ (e - 1)
    let q1 := if half < r ∨ (r = half ∧ q % 2 = 1) then q + 1 else q
    Int.sign n * ((q1 * 2 ^ e : Nat) : Int)

/-- The read `adsGlobals.mans[i]` of the 9-entry selector array. -/
def readMans (g : adsGlobals) (i : Int) : Option Nat :=
  if 0 ≤ i ∧ i < 9 then some (g.mans i.toNat) else none

/-- One timer tick, `adcISR()`, with `rdr` the word found in `SPI_REGS.RDR`.

A tick that succeeds never overflows an `int`: `nextman` was a valid index of `mans`
when `mans[nextman]` was read, and `npts` is incremented either from a negative value
or from a valid index of `adcData`. -/
def adcISR (g : adsGlobals) (rdr : Nat) : Option (adsGlobals × TickEffect) :=
  let result : Nat := rdr % 65536
  match readMans g g.nextman with
  | none => none
  | some tdr =>
    match g.adcState with
    | .adcStart =>
      some ({ g with nextman := 0, npts := -2, adcState := .adcRun }, ⟨tdr, none⟩)
    | .adcRun =>
      if 0 ≤ g.npts ∧ ¬ g.npts < (maxpts : Int) then none
      else
        let g1 : adsGlobals :=
          if 0 ≤ g.npts then
            { g with
              adcData := Function.update g.adcData g.npts.toNat result
              adcSum := roundDouble (g.adcSum + (result : Int))
              adcSum2 := roundDouble (g.adcSum2 + squareInt32 result) }
          else g
        let store : Option (Nat × Nat) :=
          if 0 ≤ g.npts then some (g.npts.toNat, result) else none
        let g2 : adsGlobals := { g1 with npts := g1.npts + 1 }
        let g3 : adsGlobals :=
          if g2.npts ≥ g2.lastpt then { g2 with adcState := .adcIdle } else g2
        let g4 : adsGlobals := { g3 with nextman := g3.nextman + 1 }
        match readMans g4 g4.nextman with
        | none => none
        | some m => some (if m = 0 then { g4 with nextman := 0 } else g4, ⟨tdr, store⟩)
    | .adcIdle => some (g, ⟨tdr, none⟩)

/-- How the wait of `readArray` can turn out after a budget of ticks. -/
inductive Outcome where
  | done (g : adsGlobals) (log : List TickEffect)
  | waiting (g : adsGlobals) (log : List TickEffect)
  | fault (log : List TickEffect)

/-- The busy wait `while (adsGlobals.adcState != adcIdle);` with the timer running:
as long as the state is not `adcIdle` the next tick is taken, `k` being its number and
`log` the effects of the ticks so far. `fuel` bounds the number of ticks waited for. -/
def waitIdle (rx : Nat → Nat) (fuel : Nat) (k : Nat) (g : adsGlobals)
    (log : List TickEffect) : Outcome :=
  if g.adcState = .adcIdle then .done g log
  else
    match fuel with
    | 0 => .waiting g log
    | f + 1 =>
      match adcISR g (rx k) with
      | none => .fault log
      | some (g1, e) => waitIdle rx f (k + 1) g1 (log ++ [e])

/-- The assignments `readArray` makes to the global record before the wait: counters and
accumulators are reset, `lastpt` takes the requested length, and the state, set to
`adcIdle` while the timer is armed, is seeded with `adcStart`. -/
def readArraySetup (g : adsGlobals) (len : Int) : adsGlobals :=
  { g with
    npts := 0
    lastpt := len
    adcSum := 0
    adcSum2 := 0
    nextman := 0
    adcState := .adcStart }

/-- The run of `readArray(len, fs)` on the global record: set-up, then ticks until
`adcIdle` is observed. The bus transaction, the frame size in `TCR`, the timer period
derived from `fs` and the chip-select line do not enter the record and are left out. -/
def readArray (g : adsGlobals) (len : Int) (rx : Nat → Nat) (fuel : Nat) : Outcome :=
  waitIdle rx fuel 0 (readArraySetup g len) []

/-- The entries `adcData[0..n)` in index order. -/
def bufferUpTo (g : adsGlobals) (n : Nat) : List Nat :=
  (List.range n).map g.adcData

/-- The `adcData` writes of a run, in the order they were made. -/
def storesOf (log : List TickEffect) : List (Nat × Nat) :=
  log.filterMap TickEffect.store

/-- The words put in the transmit register, one per tick. -/
def tdrOf (log : List TickEffect) : List Nat :=
  log.map TickEffect.tdr

/-- The record while the timer is armed and `adcStart` is not yet seeded: the
assignments of `readArray` up to `adsGlobals.adcState = adcIdle`. -/
def readArrayArmed (g : adsGlobals) (len : Int) : adsGlobals :=
  { g with
    npts := 0
    lastpt := len
    adcSum := 0
    adcSum2 := 0
    nextman := 0
    adcState := .adcIdle }

/-- The timer firing `n` times in a row, tick number `k` first; `none` when a tick makes
an access outside an array. -/
def ticks (rx : Nat → Nat) : Nat → Nat → adsGlobals → Option adsGlobals
  | 0, _, g => some g
  | n + 1, k, g =>
    match adcISR g (rx k) with
    | none => none
    | some (g1, _) => ticks rx n (k + 1) g1

/-- The assignment `SPI_REGS.TCR = (SPI_REGS.TCR & 0xfffff000) | LPSPI_TCR_FRAMESZ(31)` on
the 32-bit register; `framesz31` is the value of the macro `LPSPI_TCR_FRAMESZ(31)`, which
the repository takes from the core library. -/
def frame32 (framesz31 tcr : Nat) : Nat :=
  ((tcr &&& 0xfffff000) ||| framesz31) % 4294967296

/-- The statement `while ((SPI_REGS.RSR & LPSPI_RSR_RXEMPTY)) SPI_REGS.TCR = old;` as the
source has it, the assignment being the body of the loop: `rxempty i` tells whether the
`i`-th test finds the flag set, `tcr` is the register, and `fuel` bounds the number of
tests. The result is the register when the loop is left. -/
def restoreLoop (rxempty : Nat → Bool) (old : Nat) : Nat → Nat → Nat → Option Nat
  | 0, _, _ => none
  | f + 1, i, tcr => if rxempty i then restoreLoop rxempty old f (i + 1) old else some tcr

/-- What `readArray` does to `SPI_REGS.TCR`: `old` is read, the frame size is switched
to 32 bits, and after the run the loop above is executed. The ticks do not touch `TCR`.
The result is the register on return. -/
def readArrayTCR (framesz31 : Nat) (rxempty : Nat → Bool) (tcr : Nat) (fuel : Nat) :
    Option Nat :=
  let old := tcr
  restoreLoop rxempty old fuel 0 (frame32 framesz31 tcr)

/-- The manual channel selection codes `MAN_Ch_0` .. `MAN_Ch_7` and `MAN_AUX`. They are
macros of `ADS8688.h`, a library outside the repository, and enter as parameters. -/
structure ManCodes where
  MAN_Ch_0 : Nat
  MAN_Ch_1 : Nat
  MAN_Ch_2 : Nat
  MAN_Ch_3 : Nat
  MAN_Ch_4 : Nat
  MAN_Ch_5 : Nat
  MAN_Ch_6 : Nat
  MAN_Ch_7 : Nat
  MAN_AUX : Nat

/-- The function `uint8_t chanReg(int ch)`: the `switch` over `ch`, its result narrowed
to `uint8_t`. -/
def chanReg (c : ManCodes) (ch : Int) : Nat :=
  let reg : Nat :=
    if ch = 0 then c.MAN_Ch_0
    else if ch = 1 then c.MAN_Ch_1
    else if ch = 2 then c.MAN_Ch_2
    else if ch = 3 then c.MAN_Ch_3
    else if ch = 4 then c.MAN_Ch_4
    else if ch = 5 then c.MAN_Ch_5
    else if ch = 6 then c.MAN_Ch_6
    else if ch = 7 then c.MAN_Ch_7
    else if ch = 8 then c.MAN_AUX
    else c.MAN_Ch_0
  reg % 256

/-! ## Closed form of a run

Definitions used to state and prove the properties; they are not part of the source. -/

/-- The selector array has a terminator the index can meet: some entry `mans[t]` with
`1 ≤ t ≤ 8` is zero (`mans[0]` is never tested by `adcISR`). -/
def Terminated (mans : Nat → Nat) : Prop :=
  ∃ t, t < 9 ∧ 1 ≤ t ∧ mans t = 0

/-- Value of `nextman` after the tick taken in `adcStart` and `j` ticks taken in `adcRun`. -/
def nextmanAfter (mans : Nat → Nat) : Nat → Nat
  | 0 => 0
  | j + 1 => if mans (nextmanAfter mans j + 1) = 0 then 0 else nextmanAfter mans j + 1

/-- The first `n` ticks taken in `adcRun` keep both reads of `mans` inside the array. -/
def SelectorFits (mans : Nat → Nat) (n : Nat) : Prop :=
  ∀ i, i < n → nextmanAfter mans i + 1 < 9

/-- Number of ticks a run of requested length `len` takes in `adcRun`. -/
def runTicks (len : Int) : Nat :=
  if len < 0 then 1 else len.toNat + 2

/-- The global record after the tick taken in `adcStart` and `j` ticks taken in `adcRun`,
for a run of requested length `len` started from `g`. -/
def afterRun (g : adsGlobals) (len : Int) (rx : Nat → Nat) (j : Nat) : adsGlobals :=
  { adcState := if 1 ≤ j ∧ len + 2 ≤ (j : Int) then .adcIdle else .adcRun
    npts := (j : Int) - 2
    lastpt := len
    adcData := fun i => if i + 2 < j then rx (i + 3) % 65536 else g.adcData i
    mans := g.mans
    nextman := (nextmanAfter g.mans j : Nat)
    adcSum := ∑ i in Finset.range (j - 2), ((rx (i + 3) % 65536 : Nat) : Int)
    adcSum2 := ∑ i in Finset.range (j - 2), squareInt32 (rx (i + 3) % 65536) }

/-- Effect of the tick taken in `adcStart`. -/
def startEffect (g : adsGlobals) : TickEffect :=
  ⟨g.mans 0, none⟩

/-- Effect of the `j`-th tick taken in `adcRun` (counted from `0`). -/
def runEffect (g : adsGlobals) (rx : Nat → Nat) (j : Nat) : TickEffect :=
  ⟨g.mans (nextmanAfter g.mans j), if 2 ≤ j then some (j - 2, rx (j + 1) % 65536) else none⟩

/-! ## Concrete data -/

/-- A record as a previous run may have left it, with the selector list `[11, 12]`. -/
def demoGlobals : adsGlobals :=
  { adcState := .adcIdle
    npts := 7
    lastpt := 9
    adcData := fun _ => 0
    mans := fun i => if i = 0 then 11 else if i = 1 then 12 else 0
    nextman := 0
    adcSum := 5
    adcSum2 := 6 }

/-- Received words `100, 101, 102, ...`: tick `k` receives `100 + k`. -/
def demoWords : Nat → Nat := fun k => 100 + k

/-- Words that agree with `demoWords` from tick `2` on and are `7` before. -/
def demoWordsPrimed : Nat → Nat := fun k => if k < 2 then 7 else 100 + k

/-- A record whose selector list is `[21, 22, 23]`. -/
def demoThree : adsGlobals :=
  { demoGlobals with mans := fun i => if i < 3 then 21 + i else 0 }

/-- A record that differs from `demoGlobals` in every field but the selector list. -/
def demoStale : adsGlobals :=
  { adcState := .adcRun
    npts := 31
    lastpt := -4
    adcData := fun i => 9 + i
    mans := demoGlobals.mans
    nextman := 5
    adcSum := 1234
    adcSum2 := -77 }

/-- A record in `adcStart` with stale counters: `npts = 31` and `nextman = 5`. -/
def demoStart : adsGlobals :=
  { demoStale with adcState := .adcStart }

/-- A record in `adcRun` about to store at index `2`, with `nextman = 1` on `[11, 12]`. -/
def demoRun : adsGlobals :=
  { demoGlobals with adcState := .adcRun, npts := 2, nextman := 1 }

/-- The codes as `ADS8688.h` defines them: `0xC0`, `0xC4`, ..., `0xDC` and `0xE0`. -/
def ads8688Codes : ManCodes :=
  { MAN_Ch_0 := 0xC0, MAN_Ch_1 := 0xC4, MAN_Ch_2 := 0xC8, MAN_Ch_3 := 0xCC,
    MAN_Ch_4 := 0xD0, MAN_Ch_5 := 0xD4, MAN_Ch_6 := 0xD8, MAN_Ch_7 := 0xDC,
    MAN_AUX := 0xE0 }

/-- Every code fits the `uint8_t` that `chanReg` returns. -/
def ManCodes.Fits (c : ManCodes) : Prop :=
  c.MAN_Ch_0 < 256 ∧ c.MAN_Ch_1 < 256 ∧ c.MAN_Ch_2 < 256 ∧ c.MAN_Ch_3 < 256 ∧
    c.MAN_Ch_4 < 256 ∧ c.MAN_Ch_5 < 256 ∧ c.MAN_Ch_6 < 256 ∧ c.MAN_Ch_7 < 256 ∧
    c.MAN_AUX < 256

/-! ## Lemmas -/

theorem nextmanAfter_lt {mans : Nat → Nat} {t : Nat} (h1 : 1 ≤ t) (h0 : mans t = 0) (j : Nat) :
    nextmanAfter mans j < t := by
  induction j with
  | zero => simpa [nextmanAfter] using h1
  | succ j ih =>
    simp only [nextmanAfter]
    split
    · omega
    · next hne =>
      have : nextmanAfter mans j + 1 ≠ t := fun h => hne (h ▸ h0)
      omega

theorem selectorFits_of_terminated {mans : Nat → Nat} (hm : Terminated mans) (n : Nat) :
    SelectorFits mans n := by
  intro j _
  obtain ⟨t, ht, h1, h0⟩ := hm
  have := nextmanAfter_lt h1 h0 j
  omega

theorem nextmanAfter_le_self (mans : Nat → Nat) (j : Nat) : nextmanAfter mans j ≤ j := by
  induction j with
  | zero => simp [nextmanAfter]
  | succ j ih =>
    simp only [nextmanAfter]
    split <;> omega

theorem selectorFits_of_le (mans : Nat → Nat) (n : Nat) (hn : n ≤ 8) : SelectorFits mans n := by
  intro j hj
  have := nextmanAfter_le_self mans j
  omega

theorem roundDouble_of_lt {n : Int} (h : n.natAbs < 2 ^ 53) : roundDouble n = n := by
  unfold roundDouble
  exact if_pos h

theorem squareInt32_bounds (r : Nat) :
    -2147483648 ≤ squareInt32 r ∧ squareInt32 r < 2147483648 := by
  unfold squareInt32 toInt32
  constructor <;> omega

theorem sum_range_bounds (f : Nat → Int) (a b : Int) (hf : ∀ i, a ≤ f i ∧ f i ≤ b)
    (n : Nat) :
    a * (n : Int) ≤ ∑ i in Finset.range n, f i ∧
      ∑ i in Finset.range n, f i ≤ b * (n : Int) := by
  induction n with
  | zero => simp
  | succ n ih =>
    rw [Finset.sum_range_succ, Nat.cast_succ, mul_add, mul_add, mul_one, mul_one]
    have := hf n
    omega

theorem sum_results_bounds (rx : Nat → Nat) (n : Nat) :
    0 ≤ ∑ i in Finset.range n, ((rx (i + 3) % 65536 : Nat) : Int) ∧
    ∑ i in Finset.range n, ((rx (i + 3) % 65536 : Nat) : Int) ≤ 65535 * (n : Int) := by
  have h := sum_range_bounds (fun i => ((rx (i + 3) % 65536 : Nat) : Int)) 0 65535
    (fun i => by
      have := Nat.mod_lt (rx (i + 3)) (show 65536 > 0 by decide)
      show 0 ≤ ((rx (i + 3) % 65536 : Nat) : Int) ∧ ((rx (i + 3) % 65536 : Nat) : Int) ≤ 65535
      constructor <;> omega) n
  rw [zero_mul] at h
  exact h

theorem sum_squares_bounds (rx : Nat → Nat) (n : Nat) :
    -2147483648 * (n : Int) ≤ ∑ i in Finset.range n, squareInt32 (rx (i + 3) % 65536) ∧
    ∑ i in Finset.range n, squareInt32 (rx (i + 3) % 65536) ≤ 2147483648 * (n : Int) := by
  exact sum_range_bounds (fun i => squareInt32 (rx (i + 3) % 65536)) (-2147483648) 2147483648
    (fun i => by
      have := squareInt32_bounds (rx (i + 3) % 65536)
      show -2147483648 ≤ squareInt32 (rx (i + 3) % 65536) ∧
        squareInt32 (rx (i + 3) % 65536) ≤ 2147483648
      constructor <;> omega) n

theorem adcISR_start (g : adsGlobals) (rdr : Nat) (hs : g.adcState = .adcStart)
    (h0 : 0 ≤ g.nextman) (h9 : g.nextman < 9) :
    adcISR g rdr =
      some ({ g with nextman := 0, npts := -2, adcState := .adcRun },
        ⟨g.mans g.nextman.toNat, none⟩) := by
  simp [adcISR, readMans, hs, h0, h9]

theorem adcISR_run_discard (g : adsGlobals) (rdr : Nat) (hs : g.adcState = .adcRun)
    (hp : g.npts < 0) (h0 : 0 ≤ g.nextman) (h9 : g.nextman + 1 < 9) :
    adcISR g rdr =
      some ({ g with
              npts := g.npts + 1
              adcState := if g.lastpt ≤ g.npts + 1 then .adcIdle else .adcRun
              nextman := if g.mans (g.nextman + 1).toNat = 0 then 0 else g.nextman + 1 },
        ⟨g.mans g.nextman.toNat, none⟩) := by
  have h9a : g.nextman < 9 := by omega
  have h0a : 0 ≤ g.nextman + 1 := by omega
  have hp1 : ¬ 0 ≤ g.npts := by omega
  by_cases hl : g.lastpt ≤ g.npts + 1 <;>
    by_cases hz : g.mans (g.nextman + 1).toNat = 0 <;>
    simp [adcISR, readMans, hs, h0, h9, h9a, h0a, hp1, hl, hz]

theorem adcISR_run_store (g : adsGlobals) (rdr : Nat) (hs : g.adcState = .adcRun)
    (hp : 0 ≤ g.npts) (hq : g.npts < (maxpts : Int)) (h0 : 0 ≤ g.nextman)
    (h9 : g.nextman + 1 < 9) :
    adcISR g rdr =
      some ({ g with
              adcData := Function.update g.adcData g.npts.toNat (rdr % 65536)
              adcSum := roundDouble (g.adcSum + ((rdr % 65536 : Nat) : Int))
              adcSum2 := roundDouble (g.adcSum2 + squareInt32 (rdr % 65536))
              npts := g.npts + 1
              adcState := if g.lastpt ≤ g.npts + 1 then .adcIdle else .adcRun
              nextman := if g.mans (g.nextman + 1).toNat = 0 then 0 else g.nextman + 1 },
        ⟨g.mans g.nextman.toNat, some (g.npts.toNat, rdr % 65536)⟩) := by
  have h9a : g.nextman < 9 := by omega
  have h0a : 0 ≤ g.nextman + 1 := by omega
  by_cases hl : g.lastpt ≤ g.npts + 1 <;>
    by_cases hz : g.mans (g.nextman + 1).toNat = 0 <;>
    simp [adcISR, readMans, hs, h0, h9, h9a, h0a, hp, hq, hl, hz]

theorem adcISR_idle (g : adsGlobals) (rdr : Nat) (hs : g.adcState = .adcIdle)
    (h0 : 0 ≤ g.nextman) (h9 : g.nextman < 9) :
    adcISR g rdr = some (g, ⟨g.mans g.nextman.toNat, none⟩) := by
  simp [adcISR, readMans, hs, h0, h9]

theorem adcISR_overrun (g : adsGlobals) (rdr : Nat) (hs : g.adcState = .adcRun)
    (hq : (maxpts : Int) ≤ g.npts) : adcISR g rdr = none := by
  have hp : 0 ≤ g.npts := le_trans (by simp [maxpts]) hq
  have hq1 : ¬ g.npts < (maxpts : Int) := by omega
  unfold adcISR
  cases readMans g g.nextman with
  | none => rfl
  | some tdr => simp [hs, hp, hq1]

theorem nextmanAfter_cast (mans : Nat → Nat) (j : Nat) :
    ((nextmanAfter mans (j + 1) : Nat) : Int) =
      if mans (((nextmanAfter mans j : Nat) : Int) + 1).toNat = 0 then 0
      else ((nextmanAfter mans j : Nat) : Int) + 1 := by
  have h : (((nextmanAfter mans j : Nat) : Int) + 1).toNat = nextmanAfter mans j + 1 := by omega
  rw [h]
  simp only [nextmanAfter]
  split <;> simp

theorem adcSum_step (rx : Nat → Nat) (j : Nat) (h2 : 2 ≤ j) (hj : j < maxpts + 2) :
    roundDouble (∑ i in Finset.range (j - 2), ((rx (i + 3) % 65536 : Nat) : Int)
        + ((rx (j + 1) % 65536 : Nat) : Int)) =
      ∑ i in Finset.range (j + 1 - 2), ((rx (i + 3) % 65536 : Nat) : Int) := by
  obtain ⟨m, rfl⟩ : ∃ m, j = m + 2 := ⟨j - 2, by omega⟩
  have hmax : maxpts = 32768 := rfl
  have hb := sum_results_bounds rx (m + 1)
  rw [show m + 2 + 1 - 2 = m + 1 by omega, show m + 2 - 2 = m by omega,
    show m + 2 + 1 = m + 3 by omega]
  rw [Finset.sum_range_succ] at hb ⊢
  apply roundDouble_of_lt
  have hm : ((m + 1 : Nat) : Int) ≤ 32768 := by omega
  omega

theorem adcSum2_step (rx : Nat → Nat) (j : Nat) (h2 : 2 ≤ j) (hj : j < maxpts + 2) :
    roundDouble (∑ i in Finset.range (j - 2), squareInt32 (rx (i + 3) % 65536)
        + squareInt32 (rx (j + 1) % 65536)) =
      ∑ i in Finset.range (j + 1 - 2), squareInt32 (rx (i + 3) % 65536) := by
  obtain ⟨m, rfl⟩ : ∃ m, j = m + 2 := ⟨j - 2, by omega⟩
  have hmax : maxpts = 32768 := rfl
  have hb := sum_squares_bounds rx (m + 1)
  rw [show m + 2 + 1 - 2 = m + 1 by omega, show m + 2 - 2 = m by omega,
    show m + 2 + 1 = m + 3 by omega]
  rw [Finset.sum_range_succ] at hb ⊢
  apply roundDouble_of_lt
  have hm : ((m + 1 : Nat) : Int) ≤ 32768 := by omega
  omega

theorem adcData_step (g : adsGlobals) (len : Int) (rx : Nat → Nat) (j : Nat) (h2 : 2 ≤ j) :
    Function.update (afterRun g len rx j).adcData (afterRun g len rx j).npts.toNat
        (rx (j + 1) % 65536) = (afterRun g len rx (j + 1)).adcData := by
  funext i
  have hi : (afterRun g len rx j).npts.toNat = j - 2 := by
    show ((j : Int) - 2).toNat = j - 2
    omega
  rw [hi]
  by_cases h : i = j - 2
  · subst h
    rw [Function.update_same]
    simp only [afterRun]
    rw [if_pos (by omega), show j - 2 + 3 = j + 1 by omega]
  · rw [Function.update_noteq h]
    simp only [afterRun]
    by_cases h3 : i + 2 < j
    · rw [if_pos h3, if_pos (by omega)]
    · rw [if_neg h3, if_neg (by omega)]

theorem afterRun_state_step (g : adsGlobals) (len : Int) (rx : Nat → Nat) (j : Nat) :
    (if (afterRun g len rx j).lastpt ≤ (afterRun g len rx j).npts + 1 then adcStates.adcIdle
      else adcStates.adcRun) = (afterRun g len rx (j + 1)).adcState := by
  simp only [afterRun]
  refine if_congr ⟨fun h => ⟨by omega, ?_⟩, fun h => ?_⟩ rfl rfl
  · push_cast; omega
  · have := h.2
    push_cast at this
    omega

theorem afterRun_npts_step (g : adsGlobals) (len : Int) (rx : Nat → Nat) (j : Nat) :
    (afterRun g len rx j).npts + 1 = (afterRun g len rx (j + 1)).npts := by
  simp only [afterRun]
  push_cast
  omega

/-- A tick taken in `adcRun` with the index inside the buffer leads from the record after
`j` ticks to the record after `j + 1`. -/
theorem adcISR_afterRun (g : adsGlobals) (len : Int) (rx : Nat → Nat) (j : Nat)
    (hn : nextmanAfter g.mans j + 1 < 9) (hrun : ¬ (1 ≤ j ∧ len + 2 ≤ (j : Int)))
    (hj : j < maxpts + 2) :
    adcISR (afterRun g len rx j) (rx (j + 1)) =
      some (afterRun g len rx (j + 1), runEffect g rx j) := by
  have hst : (afterRun g len rx j).adcState = .adcRun := by
    simp only [afterRun, if_neg hrun]
  have hnm : (afterRun g len rx j).nextman = (nextmanAfter g.mans j : Nat) := rfl
  have hnp : (afterRun g len rx j).npts = (j : Int) - 2 := rfl
  have hmax : maxpts = 32768 := rfl
  have hn0 : 0 ≤ (afterRun g len rx j).nextman := by rw [hnm]; omega
  have hn9 : (afterRun g len rx j).nextman + 1 < 9 := by rw [hnm]; omega
  by_cases h2 : 2 ≤ j
  · rw [adcISR_run_store _ _ hst (by rw [hnp]; omega) (by rw [hnp]; omega) hn0 hn9]
    refine congrArg some (Prod.ext ?_ ?_)
    · apply adsGlobals.ext
      · exact afterRun_state_step g len rx j
      · exact afterRun_npts_step g len rx j
      · rfl
      · exact adcData_step g len rx j h2
      · rfl
      · exact (nextmanAfter_cast g.mans j).symm
      · exact adcSum_step rx j h2 hj
      · exact adcSum2_step rx j h2 hj
    · show (⟨_, _⟩ : TickEffect) = _
      simp only [runEffect, if_pos h2, hnm, hnp, Int.toNat_ofNat]
      rw [show ((j : Int) - 2).toNat = j - 2 by omega]
      rfl
  · rw [adcISR_run_discard _ _ hst (by rw [hnp]; omega) hn0 hn9]
    refine congrArg some (Prod.ext ?_ ?_)
    · apply adsGlobals.ext
      · exact afterRun_state_step g len rx j
      · exact afterRun_npts_step g len rx j
      · rfl
      · funext i
        show (afterRun g len rx j).adcData i = (afterRun g len rx (j + 1)).adcData i
        simp only [afterRun]
        rw [if_neg (by omega), if_neg (by omega)]
      · rfl
      · exact (nextmanAfter_cast g.mans j).symm
      · show (afterRun g len rx j).adcSum = (afterRun g len rx (j + 1)).adcSum
        simp only [afterRun]
        rw [show j + 1 - 2 = j - 2 by omega]
      · show (afterRun g len rx j).adcSum2 = (afterRun g len rx (j + 1)).adcSum2
        simp only [afterRun]
        rw [show j + 1 - 2 = j - 2 by omega]
    · simp [runEffect, afterRun, h2]

theorem waitIdle_idle (rx : Nat → Nat) (fuel k : Nat) (g : adsGlobals) (log : List TickEffect)
    (h : g.adcState = .adcIdle) : waitIdle rx fuel k g log = .done g log := by
  unfold waitIdle
  rw [if_pos h]

theorem waitIdle_zero (rx : Nat → Nat) (k : Nat) (g : adsGlobals) (log : List TickEffect)
    (h : g.adcState ≠ .adcIdle) : waitIdle rx 0 k g log = .waiting g log := by
  unfold waitIdle
  rw [if_neg h]

theorem waitIdle_succ (rx : Nat → Nat) (f k : Nat) (g g1 : adsGlobals) (e : TickEffect)
    (log : List TickEffect) (h : g.adcState ≠ .adcIdle) (hstep : adcISR g (rx k) = some (g1, e)) :
    waitIdle rx (f + 1) k g log = waitIdle rx f (k + 1) g1 (log ++ [e]) := by
  rw [waitIdle, if_neg h]
  simp only [hstep]

theorem waitIdle_fault (rx : Nat → Nat) (f k : Nat) (g : adsGlobals)
    (log : List TickEffect) (h : g.adcState ≠ .adcIdle) (hstep : adcISR g (rx k) = none) :
    waitIdle rx (f + 1) k g log = .fault log := by
  rw [waitIdle, if_neg h]
  simp only [hstep]

theorem afterRun_state_run (g : adsGlobals) (len : Int) (rx : Nat → Nat) (j : Nat)
    (h : ¬ (1 ≤ j ∧ len + 2 ≤ (j : Int))) : (afterRun g len rx j).adcState = .adcRun := by
  simp only [afterRun, if_neg h]

theorem afterRun_state_idle (g : adsGlobals) (len : Int) (rx : Nat → Nat) (j : Nat)
    (h : 1 ≤ j ∧ len + 2 ≤ (j : Int)) : (afterRun g len rx j).adcState = .adcIdle := by
  simp only [afterRun, if_pos h]

/-- From the record reached after `j` ticks in `adcRun`, `d` further ticks that all find
the state `adcRun` and an index inside the buffer lead to the record after `j + d`. -/
theorem waitIdle_afterRun (g : adsGlobals) (len : Int) (rx : Nat → Nat) :
    ∀ (d j fuel : Nat) (log : List TickEffect), d ≤ fuel → j + d ≤ maxpts + 2 →
      SelectorFits g.mans (j + d) →
      (∀ i, j ≤ i → i < j + d → ¬ (1 ≤ i ∧ len + 2 ≤ (i : Int))) →
      waitIdle rx fuel (j + 1) (afterRun g len rx j) log =
        waitIdle rx (fuel - d) (j + d + 1) (afterRun g len rx (j + d))
          (log ++ (List.range' j d).map (runEffect g rx)) := by
  intro d
  induction d with
  | zero => intro j fuel log _ _ _ _; simp
  | succ d ih =>
    intro j fuel log hf hj hsel hrun
    obtain ⟨f, rfl⟩ : ∃ f, fuel = f + 1 := ⟨fuel - 1, by omega⟩
    have hr := hrun j (le_refl j) (by omega)
    have hne : (afterRun g len rx j).adcState ≠ .adcIdle := by
      rw [afterRun_state_run g len rx j hr]; decide
    rw [waitIdle_succ rx f (j + 1) _ _ _ log hne
      (adcISR_afterRun g len rx j (hsel j (by omega)) hr (by omega))]
    rw [ih (j + 1) f (log ++ [runEffect g rx j]) (by omega) (by omega)
      (fun i hi => hsel i (by omega))
      (fun i hi1 hi2 => hrun i (by omega) (by omega))]
    rw [List.range'_succ, List.map_cons, List.append_assoc, List.singleton_append,
      Nat.add_sub_add_right, show j + 1 + d = j + (d + 1) by omega]

theorem adcISR_setup (g : adsGlobals) (len : Int) (rx : Nat → Nat) (rdr : Nat) :
    adcISR (readArraySetup g len) rdr = some (afterRun g len rx 0, startEffect g) := by
  rw [adcISR_start _ _ rfl (le_refl _) (by show (0 : Int) < 9; decide)]
  refine congrArg some (Prod.ext ?_ rfl)
  apply adsGlobals.ext
  · rfl
  · rfl
  · rfl
  · funext i
    show g.adcData i = if i + 2 < 0 then rx (i + 3) % 65536 else g.adcData i
    rw [if_neg (by omega)]
  · rfl
  · rfl
  · rfl
  · rfl

theorem readArray_zero (g : adsGlobals) (len : Int) (rx : Nat → Nat) :
    readArray g len rx 0 = .waiting (readArraySetup g len) [] :=
  waitIdle_zero rx 0 _ [] (by show adcStates.adcStart ≠ adcStates.adcIdle; decide)

/-- A run whose first `d` ticks in `adcRun` all find the state `adcRun` and an index inside
the buffer continues from the record reached after them. -/
theorem readArray_steps (g : adsGlobals) (len : Int) (rx : Nat → Nat)
    (d f : Nat) (hm : SelectorFits g.mans d) (hf : d ≤ f) (hd : d ≤ maxpts + 2)
    (hrun : ∀ i, i < d → ¬ (1 ≤ i ∧ len + 2 ≤ (i : Int))) :
    readArray g len rx (f + 1) =
      waitIdle rx (f - d) (d + 1) (afterRun g len rx d)
        (startEffect g :: (List.range d).map (runEffect g rx)) := by
  unfold readArray
  rw [waitIdle_succ rx f 0 _ _ _ [] (by show adcStates.adcStart ≠ adcStates.adcIdle; decide)
    (adcISR_setup g len rx (rx 0))]
  rw [waitIdle_afterRun g len rx d 0 f _ hf (by omega) (by rw [Nat.zero_add]; exact hm)
    (fun i _ hi => hrun i (by omega))]
  simp only [Nat.zero_add, List.nil_append, List.singleton_append, List.range_eq_range']

theorem runTicks_idle (len : Int) : 1 ≤ runTicks len ∧ len + 2 ≤ (runTicks len : Int) := by
  unfold runTicks
  split <;> constructor <;> omega

theorem runTicks_run (len : Int) (i : Nat) (h : i < runTicks len) :
    ¬ (1 ≤ i ∧ len + 2 ≤ (i : Int)) := by
  unfold runTicks at h
  split at h <;> omega

/-- A run within capacity completes: with `runTicks len + 1` ticks or more waited for,
`readArray` observes `adcIdle` on the record `afterRun` describes. -/
theorem readArray_done (g : adsGlobals) (len : Int) (rx : Nat → Nat) (fuel : Nat)
    (hm : SelectorFits g.mans (runTicks len)) (hlen : len ≤ (maxpts : Int))
    (hf : runTicks len + 1 ≤ fuel) :
    readArray g len rx fuel =
      .done (afterRun g len rx (runTicks len))
        (startEffect g :: (List.range (runTicks len)).map (runEffect g rx)) := by
  obtain ⟨f, rfl⟩ : ∃ f, fuel = f + 1 := ⟨fuel - 1, by omega⟩
  have hN : runTicks len ≤ maxpts + 2 := by
    unfold runTicks
    split <;> omega
  rw [readArray_steps g len rx (runTicks len) f hm (by omega) hN (runTicks_run len)]
  exact waitIdle_idle _ _ _ _ _ (afterRun_state_idle g len rx _ (runTicks_idle len))

/-- While the run is under way the wait is still on, at the record `afterRun` describes. -/
theorem readArray_waiting (g : adsGlobals) (len : Int) (rx : Nat → Nat) (f : Nat)
    (hm : SelectorFits g.mans f) (hf : f < runTicks len) (hcap : f ≤ maxpts + 2) :
    readArray g len rx (f + 1) =
      .waiting (afterRun g len rx f)
        (startEffect g :: (List.range f).map (runEffect g rx)) := by
  rw [readArray_steps g len rx f f hm (le_refl f) hcap
    (fun i hi => runTicks_run len i (by omega)), Nat.sub_self]
  apply waitIdle_zero
  rw [afterRun_state_run g len rx f (runTicks_run len f hf)]
  decide

theorem runTicks_natCast (L : Nat) : runTicks (L : Int) = L + 2 := by
  unfold runTicks
  rw [if_neg (by omega), Int.toNat_ofNat]

theorem runLog_storeColumn (g : adsGlobals) (rx : Nat → Nat) (L : Nat) :
    (startEffect g :: (List.range (L + 2)).map (runEffect g rx)).map TickEffect.store =
      [none, none, none] ++ (List.range L).map (fun i => some (i, rx (i + 3) % 65536)) := by
  induction L with
  | zero => simp [List.range_succ, runEffect, startEffect]
  | succ L ih =>
    rw [List.range_succ, List.map_append, ← List.cons_append, List.map_append, ih,
      List.range_succ, List.map_append, List.append_assoc]
    simp [runEffect]

theorem storesOf_eq (log : List TickEffect) (xs : List (Nat × Nat))
    (h : log.map TickEffect.store = [none, none, none] ++ xs.map some) : storesOf log = xs := by
  have h1 : List.filterMap id (log.map TickEffect.store) = storesOf log := by
    rw [List.filterMap_map]
    rfl
  rw [← h1, h]
  simp [List.filterMap_append, List.filterMap_map]

theorem list_sum_range (f : Nat → Int) (n : Nat) :
    ((List.range n).map f).sum = ∑ i in Finset.range n, f i := by
  induction n with
  | zero => simp
  | succ n ih =>
    rw [List.range_succ, List.map_append, List.sum_append, ih, Finset.sum_range_succ]
    simp

theorem runLog_stores (g : adsGlobals) (rx : Nat → Nat) (k : Nat) :
    storesOf (startEffect g :: (List.range k).map (runEffect g rx)) =
      (List.range (k - 2)).map (fun i => (i, rx (i + 3) % 65536)) := by
  match k with
  | 0 => simp [storesOf, startEffect]
  | 1 => simp [storesOf, startEffect, runEffect, List.range_succ]
  | m + 2 =>
    apply storesOf_eq
    rw [runLog_storeColumn, Nat.add_sub_cancel, List.map_map]
    rfl

theorem selectorFits_mono {mans : Nat → Nat} {m n : Nat} (h : SelectorFits mans n)
    (hmn : m ≤ n) : SelectorFits mans m :=
  fun i hi => h i (by omega)

theorem runTicks_le (len : Int) (hlen : len ≤ (maxpts : Int)) : runTicks len ≤ maxpts + 2 := by
  unfold runTicks
  split <;> omega

/-- Every budget of ticks, for a run within capacity: the wait is still on at the record
reached so far, or it has ended at the record reached after `runTicks len` ticks in
`adcRun`. No budget ends in a fault. -/
theorem readArray_outcome (g : adsGlobals) (len : Int) (rx : Nat → Nat) (fuel : Nat)
    (hm : SelectorFits g.mans (runTicks len)) (hlen : len ≤ (maxpts : Int)) :
    (fuel = 0 ∧ readArray g len rx fuel = .waiting (readArraySetup g len) []) ∨
    (∃ k, k < runTicks len ∧ fuel = k + 1 ∧
      readArray g len rx fuel =
        .waiting (afterRun g len rx k) (startEffect g :: (List.range k).map (runEffect g rx))) ∨
    (runTicks len + 1 ≤ fuel ∧
      readArray g len rx fuel =
        .done (afterRun g len rx (runTicks len))
          (startEffect g :: (List.range (runTicks len)).map (runEffect g rx))) := by
  have hN := runTicks_le len hlen
  match fuel with
  | 0 => exact Or.inl ⟨rfl, readArray_zero g len rx⟩
  | f + 1 =>
    by_cases hf : f < runTicks len
    · exact Or.inr (Or.inl ⟨f, hf, rfl,
        readArray_waiting g len rx f (selectorFits_mono hm (by omega)) hf (by omega)⟩)
    · exact Or.inr (Or.inr ⟨by omega, readArray_done g len rx (f + 1) hm hlen (by omega)⟩)

theorem demoGlobals_terminated : Terminated demoGlobals.mans :=
  ⟨2, by decide, by decide, rfl⟩

/-! ## The claims -/

/-- C1: for every requested length `L ≤ maxpts`, a run set up as `readArray` does and
ticked until `adcIdle` is observed ends with `adcState = adcIdle` and `npts = L`; the
ticks `0, 1, 2` write nothing and tick `i + 3` writes `adcData[i]` for `i < L`, so
exactly the entries `adcData[0..L)` are written, each once, with the results of `L`
consecutive ticks in acquisition order, and every entry at an index `≥ L` is untouched.
The selector list is zero-terminated, as `mans` is declared to be. -/
theorem C1_run_populates_buffer (g : adsGlobals) (L : Nat) (rx : Nat → Nat) (fuel : Nat)
    (hL : L ≤ maxpts) (hm : Terminated g.mans) (hf : L + 3 ≤ fuel) :
    ∃ g1 log, readArray g (L : Int) rx fuel = .done g1 log ∧
      g1.adcState = .adcIdle ∧ g1.npts = (L : Int) ∧
      log.map TickEffect.store =
        [none, none, none] ++ (List.range L).map (fun i => some (i, rx (i + 3) % 65536)) ∧
      storesOf log = (List.range L).map (fun i => (i, rx (i + 3) % 65536)) ∧
      (∀ i, i < L → g1.adcData i = rx (i + 3) % 65536) ∧
      (∀ i, L ≤ i → g1.adcData i = g.adcData i) := by
  have hd := readArray_done g (L : Int) rx fuel (selectorFits_of_terminated hm _)
    (by exact_mod_cast hL) (by rw [runTicks_natCast]; omega)
  rw [runTicks_natCast] at hd
  have hcol := runLog_storeColumn g rx L
  refine ⟨_, _, hd, ?_, ?_, hcol, ?_, ?_, ?_⟩
  · exact afterRun_state_idle g _ rx _ ⟨by omega, by push_cast; omega⟩
  · show ((L + 2 : Nat) : Int) - 2 = L
    push_cast
    omega
  · apply storesOf_eq
    rw [hcol, List.map_map]
    rfl
  · intro i hi
    show (if i + 2 < L + 2 then rx (i + 3) % 65536 else g.adcData i) = _
    rw [if_pos (by omega)]
  · intro i hi
    show (if i + 2 < L + 2 then rx (i + 3) % 65536 else g.adcData i) = _
    rw [if_neg (by omega)]

/-- Witness of C1: the selector list `[11, 12]`, length `4`, words `100 + k`. -/
theorem C1_run_populates_buffer_witness :
    (4 ≤ maxpts ∧ Terminated demoGlobals.mans ∧ 4 + 3 ≤ 7) ∧
    ∃ g1 log, readArray demoGlobals ((4 : Nat) : Int) demoWords 7 = .done g1 log ∧
      g1.adcState = .adcIdle ∧ g1.npts = ((4 : Nat) : Int) ∧
      log.map TickEffect.store =
        [none, none, none] ++
          (List.range 4).map (fun i => some (i, demoWords (i + 3) % 65536)) ∧
      storesOf log = (List.range 4).map (fun i => (i, demoWords (i + 3) % 65536)) ∧
      (∀ i, i < 4 → g1.adcData i = demoWords (i + 3) % 65536) ∧
      (∀ i, 4 ≤ i → g1.adcData i = demoGlobals.adcData i) :=
  ⟨⟨by decide, demoGlobals_terminated, by decide⟩,
    C1_run_populates_buffer demoGlobals 4 demoWords 7 (by decide) demoGlobals_terminated
      (by decide)⟩

/-- Counterexample to C2 as stated: with the selector list `[11, 12]`, length `4` and the
results `r_k = 100 + k`, the completed run leaves `[103, 104, 105, 106]` in
`adcData[0..4)`, which is not `[r2, r3, r4, r5]`. -/
theorem C2_counterexample :
    ∃ g1 log, readArray demoGlobals 4 demoWords 7 = .done g1 log ∧
      bufferUpTo g1 4 = [103, 104, 105, 106] ∧
      bufferUpTo g1 4 ≠ [demoWords 2 % 65536, demoWords 3 % 65536, demoWords 4 % 65536,
        demoWords 5 % 65536] := by
  have hd := readArray_done demoGlobals 4 demoWords 7 (selectorFits_of_le _ _ (by decide))
    (by decide) (by decide)
  exact ⟨_, _, hd, rfl, by decide⟩

/-- C2 (amended): with the selector list `[X, Y]` and requested length `4`, the completed
run leaves `adcData[0..4) = [r3, r4, r5, r6]` and `npts = 4`, where `r_k` is the result
of tick `k` and tick `0` is the one taken in `adcStart`: three results are discarded,
that of the `adcStart` tick and those of the first two `adcRun` ticks. The codes sent
meanwhile are `X, X, Y, X, Y, X, Y`. -/
theorem C2_scenario_buffer (g : adsGlobals) (X Y : Nat) (rx : Nat → Nat) (fuel : Nat)
    (hX : g.mans 0 = X) (hY : g.mans 1 = Y) (hZ : g.mans 2 = 0) (hY0 : Y ≠ 0)
    (hf : 7 ≤ fuel) :
    ∃ g1 log, readArray g 4 rx fuel = .done g1 log ∧
      bufferUpTo g1 4 = [rx 3 % 65536, rx 4 % 65536, rx 5 % 65536, rx 6 % 65536] ∧
      g1.npts = 4 ∧ g1.adcState = .adcIdle ∧ tdrOf log = [X, X, Y, X, Y, X, Y] := by
  have hd := readArray_done g 4 rx fuel (selectorFits_of_le _ _ (by decide))
    (by decide) (by simpa [runTicks] using hf)
  refine ⟨_, _, hd, rfl, rfl, rfl, ?_⟩
  subst hX hY
  simp [tdrOf, runTicks, List.range_succ, runEffect, startEffect, nextmanAfter, hZ, hY0]

/-- Witness of C2 (amended): the selector list `[11, 12]` and the words `100 + k`. -/
theorem C2_scenario_buffer_witness :
    (demoGlobals.mans 0 = 11 ∧ demoGlobals.mans 1 = 12 ∧ demoGlobals.mans 2 = 0 ∧
      (12 : Nat) ≠ 0 ∧ 7 ≤ 7) ∧
    ∃ g1 log, readArray demoGlobals 4 demoWords 7 = .done g1 log ∧
      bufferUpTo g1 4 = [demoWords 3 % 65536, demoWords 4 % 65536, demoWords 5 % 65536,
        demoWords 6 % 65536] ∧
      g1.npts = 4 ∧ g1.adcState = .adcIdle ∧ tdrOf log = [11, 11, 12, 11, 12, 11, 12] :=
  ⟨⟨rfl, rfl, rfl, by decide, by decide⟩,
    C2_scenario_buffer demoGlobals 11 12 demoWords 7 rfl rfl rfl (by decide) (by decide)⟩

/-- C3, evaluated where it fails: a run of length `1` whose stored sample is `65535`
leaves `adcSum2 = -131071`, while the square of the stored entry is `4294836225`:
the product `result*result` does not fit the 32-bit `int` it is computed in. -/
theorem C3_square_overflows :
    ∃ g1 log, readArray demoGlobals 1 (fun _ => 65535) 4 = .done g1 log ∧
      bufferUpTo g1 1 = [65535] ∧ g1.adcSum2 = -131071 ∧
      ∑ i in Finset.range 1, (g1.adcData i : Int) * (g1.adcData i : Int) = 4294836225 := by
  have hd := readArray_done demoGlobals 1 (fun _ => 65535) 4
    (selectorFits_of_le _ _ (by decide)) (by decide) (by decide)
  refine ⟨_, _, hd, rfl, ?_, ?_⟩
  · simp [afterRun, runTicks, squareInt32, toInt32]
  · simp [afterRun, runTicks]

/-- What `adcSum2` holds after a completed run within capacity: the sum, carried without
rounding, of the 32-bit products `result*result` of the stored entries. -/
theorem adcSum2_accumulates (g : adsGlobals) (L : Nat) (rx : Nat → Nat) (fuel : Nat)
    (hL : L ≤ maxpts) (hm : Terminated g.mans) (hf : L + 3 ≤ fuel) :
    ∃ g1 log, readArray g (L : Int) rx fuel = .done g1 log ∧
      g1.adcSum2 = ∑ i in Finset.range L, squareInt32 (g1.adcData i) := by
  have hd := readArray_done g (L : Int) rx fuel (selectorFits_of_terminated hm _)
    (by exact_mod_cast hL) (by rw [runTicks_natCast]; omega)
  rw [runTicks_natCast] at hd
  refine ⟨_, _, hd, ?_⟩
  show ∑ i in Finset.range (L + 2 - 2), squareInt32 (rx (i + 3) % 65536) = _
  rw [Nat.add_sub_cancel]
  refine Finset.sum_congr rfl (fun i hi => ?_)
  have hi1 : i < L := Finset.mem_range.mp hi
  show _ = squareInt32 (if i + 2 < L + 2 then rx (i + 3) % 65536 else g.adcData i)
  rw [if_pos (by omega)]

/-- Below `46341` the 32-bit product is the square. -/
theorem squareInt32_exact (r : Nat) (h : r < 46341) : squareInt32 r = (r : Int) * (r : Int) := by
  have h0 : (0 : Int) ≤ (r : Int) * (r : Int) := by positivity
  have h1 : (r : Int) * (r : Int) ≤ 46340 * 46340 := by
    have : (r : Int) ≤ 46340 := by omega
    nlinarith
  unfold squareInt32 toInt32
  generalize (r : Int) * (r : Int) = x at h0 h1
  omega

/-- C4: after a completed run of length `L ≤ maxpts`, `adcSum` is exactly the sum of the
stored entries `adcData[0..L)` and is below `2 ^ 31`; the run made `L` stores, and at every
point of the run, while the wait is on as when it has ended, `adcSum` is the sum of the
values stored so far: it is increased once, by the stored value, with each store. -/
theorem C4_sum_exact (g : adsGlobals) (L : Nat) (rx : Nat → Nat) (fuel : Nat)
    (hL : L ≤ maxpts) (hm : Terminated g.mans) (hf : L + 3 ≤ fuel) :
    (∃ g1 log, readArray g (L : Int) rx fuel = .done g1 log ∧
      g1.adcSum = ∑ i in Finset.range L, (g1.adcData i : Int) ∧
      g1.adcSum < 2 ^ 31 ∧ (storesOf log).length = L) ∧
    (∀ f, ∃ g2 log2,
      (readArray g (L : Int) rx f = .waiting g2 log2 ∨
        readArray g (L : Int) rx f = .done g2 log2) ∧
      g2.adcSum = ((storesOf log2).map (fun p => (p.2 : Int))).sum) := by
  have hfit := selectorFits_of_terminated hm (runTicks (L : Int))
  have hcap : ((L : Nat) : Int) ≤ (maxpts : Int) := by exact_mod_cast hL
  constructor
  · have hd := readArray_done g (L : Int) rx fuel hfit hcap (by rw [runTicks_natCast]; omega)
    rw [runTicks_natCast] at hd
    have hsum : (afterRun g (L : Int) rx (L + 2)).adcSum =
        ∑ i in Finset.range L, ((rx (i + 3) % 65536 : Nat) : Int) := by
      show ∑ i in Finset.range (L + 2 - 2), ((rx (i + 3) % 65536 : Nat) : Int) = _
      rw [Nat.add_sub_cancel]
    refine ⟨_, _, hd, ?_, ?_, ?_⟩
    · rw [hsum]
      refine Finset.sum_congr rfl (fun i hi => ?_)
      have hi1 : i < L := Finset.mem_range.mp hi
      show _ = ((if i + 2 < L + 2 then rx (i + 3) % 65536 else g.adcData i : Nat) : Int)
      rw [if_pos (by omega)]
    · rw [hsum]
      have hb := (sum_results_bounds rx L).2
      have hmax : maxpts = 32768 := rfl
      have : (L : Int) ≤ 32768 := by omega
      omega
    · rw [runLog_stores, Nat.add_sub_cancel, List.length_map, List.length_range]
  · intro f
    have key : ∀ k, (afterRun g (L : Int) rx k).adcSum =
        ((storesOf (startEffect g :: (List.range k).map (runEffect g rx))).map
          (fun p => (p.2 : Int))).sum := by
      intro k
      rw [runLog_stores, List.map_map]
      exact (list_sum_range (fun i => ((rx (i + 3) % 65536 : Nat) : Int)) (k - 2)).symm
    rcases readArray_outcome g (L : Int) rx f hfit hcap with h | h | h
    · exact ⟨_, _, Or.inl h.2, by simp [readArraySetup, storesOf]⟩
    · obtain ⟨k, _, _, hk⟩ := h
      exact ⟨_, _, Or.inl hk, key k⟩
    · exact ⟨_, _, Or.inr h.2, key _⟩

/-- Witness of C4: the selector list `[11, 12]`, length `4`, words `100 + k`. -/
theorem C4_sum_exact_witness :
    (4 ≤ maxpts ∧ Terminated demoGlobals.mans ∧ 4 + 3 ≤ 7) ∧
    ((∃ g1 log, readArray demoGlobals ((4 : Nat) : Int) demoWords 7 = .done g1 log ∧
      g1.adcSum = ∑ i in Finset.range 4, (g1.adcData i : Int) ∧
      g1.adcSum < 2 ^ 31 ∧ (storesOf log).length = 4) ∧
    (∀ f, ∃ g2 log2,
      (readArray demoGlobals ((4 : Nat) : Int) demoWords f = .waiting g2 log2 ∨
        readArray demoGlobals ((4 : Nat) : Int) demoWords f = .done g2 log2) ∧
      g2.adcSum = ((storesOf log2).map (fun p => (p.2 : Int))).sum)) :=
  ⟨⟨by decide, demoGlobals_terminated, by decide⟩,
    C4_sum_exact demoGlobals 4 demoWords 7 (by decide) demoGlobals_terminated (by decide)⟩

/-- Counterexample to C5 as stated: for `len = 32769` the run is not rejected. Four ticks
after the set-up the state is `adcRun` and `adcData[0]` has been written. -/
theorem C5_counterexample :
    ∃ g1 log, readArray demoGlobals 32769 demoWords 4 = .waiting g1 log ∧
      g1.adcState = .adcRun ∧ log.length = 4 ∧ storesOf log = [(0, 103)] := by
  have hw := readArray_waiting demoGlobals 32769 demoWords 3
    (selectorFits_of_le _ _ (by decide)) (by decide) (by decide)
  exact ⟨_, _, hw, rfl, rfl, rfl⟩

/-- C5 (amended): `readArray` does not compare `len` with `maxpts`. For every
`len > maxpts` the run is started like any other: the set-up seeds `adcStart`, and after
`f + 1` ticks, for every `f ≤ maxpts + 2`, the state is `adcRun`, `npts = f - 2`, and the
ticks after the three discarded results have stored their results in `adcData[0]`,
`adcData[1]`, ... in order, up to all `maxpts` entries of the buffer. -/
theorem C5_no_length_check (g : adsGlobals) (len : Int) (rx : Nat → Nat) (f : Nat)
    (hlen : (maxpts : Int) < len) (hm : Terminated g.mans) (hf : f ≤ maxpts + 2) :
    (∃ g0, readArray g len rx 0 = .waiting g0 [] ∧ g0.adcState = .adcStart) ∧
    ∃ g1 log, readArray g len rx (f + 1) = .waiting g1 log ∧
      g1.adcState = .adcRun ∧ g1.npts = (f : Int) - 2 ∧ log.length = f + 1 ∧
      storesOf log = (List.range (f - 2)).map (fun i => (i, rx (i + 3) % 65536)) ∧
      (∀ i, i + 2 < f → g1.adcData i = rx (i + 3) % 65536) := by
  have hlt : f < runTicks len := by
    unfold runTicks
    rw [if_neg (by omega)]
    omega
  refine ⟨⟨_, readArray_zero g len rx, rfl⟩, _, _,
    readArray_waiting g len rx f (selectorFits_of_terminated hm _) hlt hf, ?_, rfl, ?_,
    runLog_stores g rx f, ?_⟩
  · exact afterRun_state_run g len rx f (runTicks_run len f hlt)
  · simp
  · intro i hi
    show (if i + 2 < f then rx (i + 3) % 65536 else g.adcData i) = _
    rw [if_pos hi]

/-- Witness of C5 (amended): `len = 32769`, the whole buffer filled after `32771` ticks. -/
theorem C5_no_length_check_witness :
    ((maxpts : Int) < 32769 ∧ Terminated demoGlobals.mans ∧ 32770 ≤ maxpts + 2) ∧
    ((∃ g0, readArray demoGlobals 32769 demoWords 0 = .waiting g0 [] ∧
      g0.adcState = .adcStart) ∧
    ∃ g1 log, readArray demoGlobals 32769 demoWords (32770 + 1) = .waiting g1 log ∧
      g1.adcState = .adcRun ∧ g1.npts = ((32770 : Nat) : Int) - 2 ∧
      log.length = 32770 + 1 ∧
      storesOf log = (List.range (32770 - 2)).map (fun i => (i, demoWords (i + 3) % 65536)) ∧
      (∀ i, i + 2 < 32770 → g1.adcData i = demoWords (i + 3) % 65536)) :=
  ⟨⟨by decide, demoGlobals_terminated, by decide⟩,
    C5_no_length_check demoGlobals 32769 demoWords 32770 (by decide) demoGlobals_terminated
      (by decide)⟩

/-- Past the capacity the next store is addressed outside `adcData`: with `len > maxpts`
and a budget of `maxpts + 4` ticks or more, the tick after the buffer was filled faults. -/
theorem readArray_overrun (g : adsGlobals) (len : Int) (rx : Nat → Nat) (fuel : Nat)
    (hlen : (maxpts : Int) < len) (hm : Terminated g.mans) (hf : maxpts + 4 ≤ fuel) :
    readArray g len rx fuel =
      .fault (startEffect g :: (List.range (maxpts + 2)).map (runEffect g rx)) := by
  obtain ⟨f, rfl⟩ : ∃ f, fuel = f + 1 := ⟨fuel - 1, by omega⟩
  have hrun : ∀ i, i < maxpts + 2 → ¬ (1 ≤ i ∧ len + 2 ≤ (i : Int)) := by
    intro i hi h
    have := h.2
    omega
  rw [readArray_steps g len rx (maxpts + 2) f (selectorFits_of_terminated hm _) (by omega)
    (le_refl _) hrun]
  obtain ⟨x, hx⟩ : ∃ x, f - (maxpts + 2) = x + 1 := ⟨f - (maxpts + 2) - 1, by omega⟩
  have hst : (afterRun g len rx (maxpts + 2)).adcState = .adcRun :=
    afterRun_state_run g len rx _ (fun h => by have := h.2; push_cast at this; omega)
  rw [hx]
  apply waitIdle_fault
  · rw [hst]; decide
  · apply adcISR_overrun _ _ hst
    show (maxpts : Int) ≤ ((maxpts + 2 : Nat) : Int) - 2
    push_cast
    omega

theorem nextmanAfter_mod (mans : Nat → Nat) (n : Nat) (hn : 1 ≤ n)
    (hnz : ∀ i, i < n → mans i ≠ 0) (hz : mans n = 0) (j : Nat) :
    nextmanAfter mans j = j % n := by
  induction j with
  | zero => simp [nextmanAfter]
  | succ j ih =>
    have hlt : j % n < n := Nat.mod_lt j (by omega)
    have hmod : (j + 1) % n = (j % n + 1) % n := (Nat.mod_add_mod j n 1).symm
    simp only [nextmanAfter, ih]
    by_cases h : j % n + 1 = n
    · rw [h, if_pos hz, hmod, h, Nat.mod_self]
    · have hlt1 : j % n + 1 < n := by omega
      rw [if_neg (hnz _ hlt1), hmod, Nat.mod_eq_of_lt hlt1]

/-- C6: for a selector list of `n` non-zero codes (`1 ≤ n ≤ 8`) followed by the zero
terminator, the code written to the transmit register on the `j`-th tick taken in `adcRun`
is `mans[j mod n]`, for every tick of a completed run (the tick taken in `adcStart`, first
in the log, sends `mans[0]`). -/
theorem C6_selector_cycles (g : adsGlobals) (n L : Nat) (rx : Nat → Nat) (fuel : Nat)
    (hn1 : 1 ≤ n) (hn8 : n ≤ 8) (hnz : ∀ i, i < n → g.mans i ≠ 0) (hz : g.mans n = 0)
    (hL : L ≤ maxpts) (hf : L + 3 ≤ fuel) :
    ∃ g1 log, readArray g (L : Int) rx fuel = .done g1 log ∧
      tdrOf log = g.mans 0 :: (List.range (L + 2)).map (fun j => g.mans (j % n)) := by
  have hm : Terminated g.mans := ⟨n, by omega, hn1, hz⟩
  have hd := readArray_done g (L : Int) rx fuel (selectorFits_of_terminated hm _)
    (by exact_mod_cast hL) (by rw [runTicks_natCast]; omega)
  rw [runTicks_natCast] at hd
  refine ⟨_, _, hd, ?_⟩
  show List.map TickEffect.tdr (startEffect g :: (List.range (L + 2)).map (runEffect g rx)) = _
  rw [List.map_cons, List.map_map]
  refine congrArg (List.cons (g.mans 0)) (List.map_congr_left (fun j _ => ?_))
  show g.mans (nextmanAfter g.mans j) = g.mans (j % n)
  rw [nextmanAfter_mod g.mans n hn1 hnz hz j]

/-- Witness of C6: the three-entry list `[21, 22, 23]` and a run of length `4`. -/
theorem C6_selector_cycles_witness :
    (1 ≤ 3 ∧ 3 ≤ 8 ∧ (∀ i, i < 3 → demoThree.mans i ≠ 0) ∧ demoThree.mans 3 = 0 ∧
      4 ≤ maxpts ∧ 4 + 3 ≤ 7) ∧
    ∃ g1 log, readArray demoThree ((4 : Nat) : Int) demoWords 7 = .done g1 log ∧
      tdrOf log =
        demoThree.mans 0 :: (List.range (4 + 2)).map (fun j => demoThree.mans (j % 3)) :=
  have hnz : ∀ i, i < 3 → demoThree.mans i ≠ 0 := by
    intro i hi
    show (if i < 3 then 21 + i else 0) ≠ 0
    rw [if_pos hi]
    omega
  ⟨⟨by decide, by decide, hnz, rfl, by decide, by decide⟩,
    C6_selector_cycles demoThree 3 4 demoWords 7 (by decide) (by decide) hnz rfl (by decide)
      (by decide)⟩

theorem waitIdle_congr (rx rx1 : Nat → Nat) :
    ∀ (fuel k : Nat) (g : adsGlobals) (log : List TickEffect),
      (∀ i, k ≤ i → rx i = rx1 i) →
      waitIdle rx fuel k g log = waitIdle rx1 fuel k g log := by
  intro fuel
  induction fuel with
  | zero => intro k g log _; unfold waitIdle; rfl
  | succ f ih =>
    intro k g log h
    rw [waitIdle, waitIdle, h k (le_refl k)]
    split
    · rfl
    · split
      · rfl
      · exact ih _ _ _ (fun i hi => h i (by omega))

theorem adcISR_start_indep (g : adsGlobals) (r r1 : Nat) (hs : g.adcState = .adcStart) :
    adcISR g r = adcISR g r1 := by
  unfold adcISR
  simp only [hs]

theorem adcISR_discard_indep (g : adsGlobals) (r r1 : Nat) (hs : g.adcState = .adcRun)
    (hp : g.npts < 0) : adcISR g r = adcISR g r1 := by
  have hp1 : ¬ 0 ≤ g.npts := by omega
  unfold adcISR
  simp only [hs, hp1, if_false, false_and]

theorem waitIdle_step_congr (rx rx1 : Nat → Nat) (fuel k : Nat) (g : adsGlobals)
    (log : List TickEffect) (hstep : adcISR g (rx k) = adcISR g (rx1 k))
    (h : ∀ i, k + 1 ≤ i → rx i = rx1 i) :
    waitIdle rx fuel k g log = waitIdle rx1 fuel k g log := by
  cases fuel with
  | zero => unfold waitIdle; rfl
  | succ f =>
    rw [waitIdle, waitIdle, hstep]
    split
    · rfl
    · split
      · rfl
      · exact waitIdle_congr rx rx1 _ _ _ _ h

theorem waitIdle_step2_congr (rx rx1 : Nat → Nat) (fuel k : Nat) (g : adsGlobals)
    (log : List TickEffect) (hstep : adcISR g (rx k) = adcISR g (rx1 k))
    (hnext : ∀ g1 e, adcISR g (rx1 k) = some (g1, e) →
      adcISR g1 (rx (k + 1)) = adcISR g1 (rx1 (k + 1)))
    (h : ∀ i, k + 2 ≤ i → rx i = rx1 i) :
    waitIdle rx fuel k g log = waitIdle rx1 fuel k g log := by
  cases fuel with
  | zero => unfold waitIdle; rfl
  | succ f =>
    rw [waitIdle, waitIdle, hstep]
    split
    · rfl
    · split
      · rfl
      · next g1 e heq =>
        exact waitIdle_step_congr rx rx1 _ _ _ _ (hnext g1 e heq) h

/-- C7: for every requested length, two sequences of received words that differ only in
the words of the first two transactions of the run (the tick taken in `adcStart` and the
tick after it) give the same run: the same final record, hence the same `adcData`,
`adcSum` and `adcSum2`, and the same stores. -/
theorem C7_priming_words_ignored (g : adsGlobals) (len : Int) (rx rx1 : Nat → Nat)
    (fuel : Nat) (h : ∀ k, 2 ≤ k → rx k = rx1 k) :
    readArray g len rx fuel = readArray g len rx1 fuel := by
  unfold readArray
  apply waitIdle_step2_congr rx rx1 fuel 0 _ _ (adcISR_start_indep _ _ _ rfl) _ h
  intro g1 e heq
  rw [adcISR_setup g len rx1 (rx1 0)] at heq
  injection heq with heq
  injection heq with h1 _
  subst h1
  exact adcISR_discard_indep _ _ _ rfl (by show ((0 : Nat) : Int) - 2 < 0; decide)

/-- Witness of C7: `demoWords` against `demoWordsPrimed`, length `4`. -/
theorem C7_priming_words_ignored_witness :
    (∀ k, 2 ≤ k → demoWords k = demoWordsPrimed k) ∧
    readArray demoGlobals 4 demoWords 7 = readArray demoGlobals 4 demoWordsPrimed 7 :=
  have h : ∀ k, 2 ≤ k → demoWords k = demoWordsPrimed k := by
    intro k hk
    show 100 + k = if k < 2 then 7 else 100 + k
    rw [if_neg (by omega)]
  ⟨h, C7_priming_words_ignored demoGlobals 4 demoWords demoWordsPrimed 7 h⟩

/-- C8: for requested length `0` the run completes after three ticks, the one taken in
`adcStart` and the two `adcRun` ticks whose results are discarded: the state is `adcIdle`
again, no `adcData` entry was written, and `adcSum = 0`, `adcSum2 = 0`, `npts = 0`. -/
theorem C8_zero_length (g : adsGlobals) (rx : Nat → Nat) (fuel : Nat) (hf : 3 ≤ fuel) :
    ∃ g1 log, readArray g 0 rx fuel = .done g1 log ∧
      g1.adcState = .adcIdle ∧ log.length = 3 ∧ storesOf log = [] ∧
      g1.adcData = g.adcData ∧ g1.adcSum = 0 ∧ g1.adcSum2 = 0 ∧ g1.npts = 0 := by
  have hd := readArray_done g 0 rx fuel (selectorFits_of_le _ _ (by decide))
    (by decide) (by simpa [runTicks] using hf)
  refine ⟨_, _, hd, rfl, rfl, rfl, ?_, rfl, rfl, rfl⟩
  funext i
  show (if i + 2 < 2 then rx (i + 3) % 65536 else g.adcData i) = _
  rw [if_neg (by omega)]

/-- Witness of C8: the record `demoGlobals` and the words `100 + k`. -/
theorem C8_zero_length_witness :
    3 ≤ 3 ∧
    ∃ g1 log, readArray demoGlobals 0 demoWords 3 = .done g1 log ∧
      g1.adcState = .adcIdle ∧ log.length = 3 ∧ storesOf log = [] ∧
      g1.adcData = demoGlobals.adcData ∧ g1.adcSum = 0 ∧ g1.adcSum2 = 0 ∧ g1.npts = 0 :=
  ⟨by decide, C8_zero_length demoGlobals demoWords 3 (by decide)⟩

theorem runLog_stores_props (g : adsGlobals) (len : Int) (rx : Nat → Nat) (k : Nat)
    (hk : k ≤ runTicks len) (hlen : len ≤ (maxpts : Int)) :
    (storesOf (startEffect g :: (List.range k).map (runEffect g rx))).map Prod.fst =
      List.range (storesOf (startEffect g :: (List.range k).map (runEffect g rx))).length ∧
    ∀ p, p ∈ storesOf (startEffect g :: (List.range k).map (runEffect g rx)) →
      (p.1 : Int) < len ∧ p.1 < maxpts := by
  rw [runLog_stores]
  constructor
  · rw [List.map_map, List.length_map, List.length_range]
    exact List.map_id _
  · intro p hp
    obtain ⟨i, hi, rfl⟩ := List.mem_map.mp hp
    have hi1 : i < k - 2 := List.mem_range.mp hi
    have hlt : (i : Int) < len := by
      unfold runTicks at hk
      split at hk <;> omega
    exact ⟨hlt, by show i < maxpts; omega⟩

/-- C9: for every requested length `len ≤ maxpts`, negative values included, and at every
point of the run (while the wait is on as when it has ended, no budget of ticks ending in a
fault), each write `adcData[i] = result` made so far has `i < len` and `i < maxpts`, and
the `k`-th write went to index `k - 1`: the indices written are `0, 1, 2, ...` in this
order, so they increase strictly and none is written twice. -/
theorem C9_writes_in_bounds_in_order (g : adsGlobals) (len : Int) (rx : Nat → Nat)
    (fuel : Nat) (hlen : len ≤ (maxpts : Int)) (hm : Terminated g.mans) :
    ∃ g1 log,
      (readArray g len rx fuel = .waiting g1 log ∨ readArray g len rx fuel = .done g1 log) ∧
      (storesOf log).map Prod.fst = List.range (storesOf log).length ∧
      ∀ p, p ∈ storesOf log → (p.1 : Int) < len ∧ p.1 < maxpts := by
  rcases readArray_outcome g len rx fuel (selectorFits_of_terminated hm _) hlen with h | h | h
  · exact ⟨_, _, Or.inl h.2, by simp [storesOf], by simp [storesOf]⟩
  · obtain ⟨k, hk, _, hr⟩ := h
    have hp := runLog_stores_props g len rx k (by omega) hlen
    exact ⟨_, _, Or.inl hr, hp.1, hp.2⟩
  · have hp := runLog_stores_props g len rx (runTicks len) (le_refl _) hlen
    exact ⟨_, _, Or.inr h.2, hp.1, hp.2⟩

/-- Witness of C9: the selector list `[11, 12]`, length `4`, all seven ticks. -/
theorem C9_writes_in_bounds_in_order_witness :
    ((4 : Int) ≤ (maxpts : Int) ∧ Terminated demoGlobals.mans) ∧
    ∃ g1 log,
      (readArray demoGlobals 4 demoWords 7 = .waiting g1 log ∨
        readArray demoGlobals 4 demoWords 7 = .done g1 log) ∧
      (storesOf log).map Prod.fst = List.range (storesOf log).length ∧
      ∀ p, p ∈ storesOf log → (p.1 : Int) < 4 ∧ p.1 < maxpts :=
  ⟨⟨by decide, demoGlobals_terminated⟩,
    C9_writes_in_bounds_in_order demoGlobals 4 demoWords 7 (by decide)
      demoGlobals_terminated⟩

/-- C10: for every `L ≤ maxpts`, every zero-terminated selector list and every sequence of
received words, two runs of `readArray` started from records that agree on the selector
list only end with the same `adcData[0..L)`, `adcSum`, `adcSum2`, `npts` and `adcState`
and make the same stores and transmissions; in each, every `adcData` entry at an index
`≥ L` still holds the value it had before the run. -/
theorem C10_only_buffer_tail_survives (g h : adsGlobals) (L : Nat) (rx : Nat → Nat)
    (fuel : Nat) (hmans : g.mans = h.mans) (hL : L ≤ maxpts) (hm : Terminated g.mans)
    (hf : L + 3 ≤ fuel) :
    ∃ g1 log1 h1 log2,
      readArray g (L : Int) rx fuel = .done g1 log1 ∧
      readArray h (L : Int) rx fuel = .done h1 log2 ∧
      (∀ i, i < L → g1.adcData i = h1.adcData i) ∧
      g1.adcSum = h1.adcSum ∧ g1.adcSum2 = h1.adcSum2 ∧ g1.npts = h1.npts ∧
      g1.adcState = h1.adcState ∧ log1 = log2 ∧
      (∀ i, L ≤ i → g1.adcData i = g.adcData i) ∧
      (∀ i, L ≤ i → h1.adcData i = h.adcData i) := by
  have hcap : ((L : Nat) : Int) ≤ (maxpts : Int) := by exact_mod_cast hL
  have hdg := readArray_done g (L : Int) rx fuel (selectorFits_of_terminated hm _) hcap
    (by rw [runTicks_natCast]; omega)
  have hdh := readArray_done h (L : Int) rx fuel
    (selectorFits_of_terminated (hmans ▸ hm) _) hcap (by rw [runTicks_natCast]; omega)
  rw [runTicks_natCast] at hdg hdh
  refine ⟨_, _, _, _, hdg, hdh, ?_, rfl, rfl, rfl, rfl, ?_, ?_, ?_⟩
  · intro i hi
    show (if i + 2 < L + 2 then rx (i + 3) % 65536 else g.adcData i) =
      (if i + 2 < L + 2 then rx (i + 3) % 65536 else h.adcData i)
    rw [if_pos (by omega), if_pos (by omega)]
  · show startEffect g :: (List.range (L + 2)).map (runEffect g rx) =
      startEffect h :: (List.range (L + 2)).map (runEffect h rx)
    unfold startEffect runEffect
    rw [hmans]
  · intro i hi
    show (if i + 2 < L + 2 then rx (i + 3) % 65536 else g.adcData i) = _
    rw [if_neg (by omega)]
  · intro i hi
    show (if i + 2 < L + 2 then rx (i + 3) % 65536 else h.adcData i) = _
    rw [if_neg (by omega)]

/-- Witness of C10: `demoGlobals` against `demoStale`, length `4`. -/
theorem C10_only_buffer_tail_survives_witness :
    (demoGlobals.mans = demoStale.mans ∧ 4 ≤ maxpts ∧ Terminated demoGlobals.mans ∧
      4 + 3 ≤ 7) ∧
    ∃ g1 log1 h1 log2,
      readArray demoGlobals ((4 : Nat) : Int) demoWords 7 = .done g1 log1 ∧
      readArray demoStale ((4 : Nat) : Int) demoWords 7 = .done h1 log2 ∧
      (∀ i, i < 4 → g1.adcData i = h1.adcData i) ∧
      g1.adcSum = h1.adcSum ∧ g1.adcSum2 = h1.adcSum2 ∧ g1.npts = h1.npts ∧
      g1.adcState = h1.adcState ∧ log1 = log2 ∧
      (∀ i, 4 ≤ i → g1.adcData i = demoGlobals.adcData i) ∧
      (∀ i, 4 ≤ i → h1.adcData i = demoStale.adcData i) :=
  ⟨⟨rfl, by decide, demoGlobals_terminated, by decide⟩,
    C10_only_buffer_tail_survives demoGlobals demoStale 4 demoWords 7 rfl (by decide)
      demoGlobals_terminated (by decide)⟩

theorem adcISR_badIndex (g : adsGlobals) (rdr : Nat) (h : ¬ (0 ≤ g.nextman ∧ g.nextman < 9)) :
    adcISR g rdr = none := by
  simp [adcISR, readMans, h]

/-- C12: a tick taken while `adcState = adcStart`, whatever word is received and whatever
`npts` and `nextman` were, sets `npts = -2`, `nextman = 0` and `adcState = adcRun`, stores
nothing, gives the same result for every received word, and leaves `adcData`, `adcSum`,
`adcSum2`, `lastpt` and `mans` unchanged. The tick has a result exactly when its read
`mans[nextman]` is inside the array, `0 ≤ nextman ≤ 8`. -/
theorem C12_start_tick (g : adsGlobals) (rdr : Nat) (hs : g.adcState = .adcStart) :
    ((∃ g1 e, adcISR g rdr = some (g1, e)) ↔ 0 ≤ g.nextman ∧ g.nextman < 9) ∧
    (∀ g1 e, adcISR g rdr = some (g1, e) →
      g1.npts = -2 ∧ g1.nextman = 0 ∧ g1.adcState = .adcRun ∧
      g1.adcData = g.adcData ∧ g1.adcSum = g.adcSum ∧ g1.adcSum2 = g.adcSum2 ∧
      g1.lastpt = g.lastpt ∧ g1.mans = g.mans ∧
      e.store = none ∧ e.tdr = g.mans g.nextman.toNat ∧
      ∀ rdr1, adcISR g rdr1 = some (g1, e)) := by
  by_cases hv : 0 ≤ g.nextman ∧ g.nextman < 9
  · have hstep := fun r => adcISR_start g r hs hv.1 hv.2
    refine ⟨⟨fun _ => hv, fun _ => ⟨_, _, hstep rdr⟩⟩, ?_⟩
    intro g1 e he
    rw [hstep rdr] at he
    injection he with he
    injection he with h1 h2
    subst h1 h2
    exact ⟨rfl, rfl, rfl, rfl, rfl, rfl, rfl, rfl, rfl, rfl, hstep⟩
  · have hnone := adcISR_badIndex g rdr hv
    refine ⟨⟨?_, fun h => absurd h hv⟩, ?_⟩
    · rintro ⟨g1, e, he⟩
      rw [hnone] at he
      exact Option.noConfusion he
    · intro g1 e he
      rw [hnone] at he
      exact Option.noConfusion he

/-- Witness of C12: the record `demoStart`, with `npts = 31` and `nextman = 5`. -/
theorem C12_start_tick_witness :
    demoStart.adcState = .adcStart ∧
    ∃ g1 e, adcISR demoStart 100 = some (g1, e) ∧
      g1.npts = -2 ∧ g1.nextman = 0 ∧ g1.adcState = .adcRun ∧
      g1.adcData = demoStart.adcData ∧ g1.adcSum = demoStart.adcSum ∧
      g1.adcSum2 = demoStart.adcSum2 ∧
      g1.lastpt = demoStart.lastpt ∧ g1.mans = demoStart.mans ∧
      e.store = none ∧ e.tdr = demoStart.mans demoStart.nextman.toNat ∧
      ∀ rdr1, adcISR demoStart rdr1 = some (g1, e) :=
  ⟨rfl,
    match (C12_start_tick demoStart 100 rfl).1.mpr ⟨by decide, by decide⟩ with
    | ⟨g1, e, he⟩ => ⟨g1, e, he, (C12_start_tick demoStart 100 rfl).2 g1 e he⟩⟩

theorem ticks_idle (rx : Nat → Nat) (g : adsGlobals) (hs : g.adcState = .adcIdle)
    (h0 : 0 ≤ g.nextman) (h9 : g.nextman < 9) :
    ∀ (n k : Nat), ticks rx n k g = some g := by
  intro n
  induction n with
  | zero => intro k; rfl
  | succ n ih =>
    intro k
    rw [ticks, adcISR_idle g (rx k) hs h0 h9]
    exact ih (k + 1)

theorem adcISR_idle_frame (g : adsGlobals) (rdr : Nat) (hs : g.adcState = .adcIdle)
    (g1 : adsGlobals) (e : TickEffect) (h : adcISR g rdr = some (g1, e)) :
    g1 = g ∧ e.store = none := by
  unfold adcISR at h
  cases hr : readMans g g.nextman with
  | none => simp [hr] at h
  | some tdr =>
    simp only [hr, hs] at h
    injection h with h
    injection h with h1 h2
    subst h1 h2
    exact ⟨rfl, rfl⟩

/-- C13: a tick taken while `adcState = adcIdle` changes no field of the record and stores
nothing, whatever word is received; it is defined whenever `nextman` is an index of `mans`.
So any number of ticks fired between arming the timer and seeding `adcStart` leave the
record as `readArray` prepared it, the seeding then giving the record the run starts from,
and any number of ticks fired after a completed run leave its result as it is. -/
theorem C13_idle_tick_changes_nothing (g : adsGlobals) (rdr : Nat) (h : adsGlobals)
    (len : Int) (rx : Nat → Nat) (n k fuel : Nat) (hs : g.adcState = .adcIdle)
    (hlen : len ≤ (maxpts : Int)) (hm : Terminated h.mans) :
    (∀ g1 e, adcISR g rdr = some (g1, e) → g1 = g ∧ e.store = none) ∧
    (0 ≤ g.nextman → g.nextman < 9 →
      adcISR g rdr = some (g, ⟨g.mans g.nextman.toNat, none⟩)) ∧
    (ticks rx n k (readArrayArmed h len) = some (readArrayArmed h len) ∧
      { readArrayArmed h len with adcState := .adcStart } = readArraySetup h len) ∧
    (∀ g1 log, readArray h len rx fuel = .done g1 log → ticks rx n k g1 = some g1) := by
  refine ⟨fun g1 e he => adcISR_idle_frame g rdr hs g1 e he,
    fun h0 h9 => adcISR_idle g rdr hs h0 h9, ⟨?_, rfl⟩, ?_⟩
  · exact ticks_idle rx _ rfl (le_refl _) (by show (0 : Int) < 9; decide) n k
  · intro g1 log hd
    have hfit := selectorFits_of_terminated hm (runTicks len)
    rcases readArray_outcome h len rx fuel hfit hlen with ho | ho | ho
    · rw [ho.2] at hd; exact Outcome.noConfusion hd
    · obtain ⟨j, _, _, hj⟩ := ho
      rw [hj] at hd; exact Outcome.noConfusion hd
    · rw [ho.2] at hd
      injection hd with h1 _
      subst h1
      have hb : nextmanAfter h.mans (runTicks len) < 9 := by
        obtain ⟨t, ht, h1, h0⟩ := hm
        have := nextmanAfter_lt h1 h0 (runTicks len)
        omega
      refine ticks_idle rx _ (afterRun_state_idle h len rx _ (runTicks_idle len)) ?_ ?_ n k
      · show (0 : Int) ≤ ((nextmanAfter h.mans (runTicks len) : Nat) : Int)
        omega
      · show ((nextmanAfter h.mans (runTicks len) : Nat) : Int) < 9
        omega

/-- Witness of C13: an idle tick on `demoGlobals`, three ticks before the seeding of a run
of length `4`, and three ticks after that run has completed. -/
theorem C13_idle_tick_changes_nothing_witness :
    (demoGlobals.adcState = .adcIdle ∧ (4 : Int) ≤ (maxpts : Int) ∧
      Terminated demoGlobals.mans ∧ 0 ≤ demoGlobals.nextman ∧ demoGlobals.nextman < 9) ∧
    adcISR demoGlobals 100 =
      some (demoGlobals, ⟨demoGlobals.mans demoGlobals.nextman.toNat, none⟩) ∧
    ticks demoWords 3 7 (readArrayArmed demoGlobals 4) = some (readArrayArmed demoGlobals 4) ∧
    (∀ g1 log, readArray demoGlobals 4 demoWords 7 = .done g1 log →
      ticks demoWords 3 7 g1 = some g1) :=
  ⟨⟨rfl, by decide, demoGlobals_terminated, by decide, by decide⟩,
    (C13_idle_tick_changes_nothing demoGlobals 100 demoGlobals 4 demoWords 3 7 7 rfl
      (by decide) demoGlobals_terminated).2.1 (by decide) (by decide),
    (C13_idle_tick_changes_nothing demoGlobals 100 demoGlobals 4 demoWords 3 7 7 rfl
      (by decide) demoGlobals_terminated).2.2.1.1,
    (C13_idle_tick_changes_nothing demoGlobals 100 demoGlobals 4 demoWords 3 7 7 rfl
      (by decide) demoGlobals_terminated).2.2.2⟩

theorem nextman_step_lt (g : adsGlobals) (n : Nat) (hz : g.mans n = 0)
    (h0 : 0 ≤ g.nextman) (hlt : g.nextman < (n : Int)) :
    0 ≤ (if g.mans (g.nextman + 1).toNat = 0 then 0 else g.nextman + 1) ∧
      (if g.mans (g.nextman + 1).toNat = 0 then 0 else g.nextman + 1) < (n : Int) := by
  by_cases hc : g.mans (g.nextman + 1).toNat = 0
  · rw [if_pos hc]
    omega
  · rw [if_neg hc]
    have hne : (g.nextman + 1).toNat ≠ n := fun h => hc (h ▸ hz)
    omega

/-- C14: with `mans[0..n)` all non-zero and `mans[n] = 0` for some `1 ≤ n ≤ 8`, and
`0 ≤ nextman < n` before a tick, the tick is undefined only when it is taken in `adcRun`
with `npts` past the end of `adcData`, never for a read of `mans`; in every state the tick
leaves `0 ≤ nextman < n` and `mans` as it was, and the code it writes to the transmit
register is `mans[nextman]`, which is not the terminator `0`. -/
theorem C14_selector_index_invariant (g : adsGlobals) (rdr n : Nat) (hn1 : 1 ≤ n)
    (hn8 : n ≤ 8) (hnz : ∀ i, i < n → g.mans i ≠ 0) (hz : g.mans n = 0)
    (h0 : 0 ≤ g.nextman) (hlt : g.nextman < (n : Int)) :
    (adcISR g rdr = none ↔ g.adcState = .adcRun ∧ (maxpts : Int) ≤ g.npts) ∧
    (∀ g1 e, adcISR g rdr = some (g1, e) →
      0 ≤ g1.nextman ∧ g1.nextman < (n : Int) ∧ g1.mans = g.mans ∧
      e.tdr = g.mans g.nextman.toNat ∧ e.tdr ≠ 0) := by
  have h9 : g.nextman + 1 < 9 := by omega
  have htdr : g.mans g.nextman.toNat ≠ 0 := hnz _ (by omega)
  have hstep := nextman_step_lt g n hz h0 hlt
  have hmax : (0 : Int) ≤ (maxpts : Int) := by simp [maxpts]
  cases hs : g.adcState with
  | adcIdle =>
    rw [adcISR_idle g rdr hs h0 (by omega)]
    refine ⟨⟨fun h => Option.noConfusion h, fun h => adcStates.noConfusion h.1⟩, ?_⟩
    intro g1 e he
    injection he with he
    injection he with h1 h2
    subst h1 h2
    exact ⟨h0, hlt, rfl, rfl, htdr⟩
  | adcStart =>
    rw [adcISR_start g rdr hs h0 (by omega)]
    refine ⟨⟨fun h => Option.noConfusion h, fun h => adcStates.noConfusion h.1⟩, ?_⟩
    intro g1 e he
    injection he with he
    injection he with h1 h2
    subst h1 h2
    exact ⟨le_refl _, by show (0 : Int) < (n : Int); omega, rfl, rfl, htdr⟩
  | adcRun =>
    by_cases hp : g.npts < 0
    · rw [adcISR_run_discard g rdr hs hp h0 h9]
      refine ⟨⟨fun h => Option.noConfusion h, fun h => by omega⟩, ?_⟩
      intro g1 e he
      injection he with he
      injection he with h1 h2
      subst h1 h2
      exact ⟨hstep.1, hstep.2, rfl, rfl, htdr⟩
    · by_cases hq : g.npts < (maxpts : Int)
      · rw [adcISR_run_store g rdr hs (by omega) hq h0 h9]
        refine ⟨⟨fun h => Option.noConfusion h, fun h => by omega⟩, ?_⟩
        intro g1 e he
        injection he with he
        injection he with h1 h2
        subst h1 h2
        exact ⟨hstep.1, hstep.2, rfl, rfl, htdr⟩
      · rw [adcISR_overrun g rdr hs (by omega)]
        exact ⟨⟨fun _ => ⟨rfl, by omega⟩, fun _ => rfl⟩,
          fun g1 e he => Option.noConfusion he⟩

theorem demoRun_codes : ∀ i, i < 2 → demoRun.mans i ≠ 0 := by
  intro i hi
  show (if i = 0 then 11 else if i = 1 then 12 else 0) ≠ 0
  split
  · decide
  · rw [if_pos (by omega)]
    decide

/-- Witness of C14: the list `[11, 12]` with `nextman = 1`, a tick taken in `adcRun`. -/
theorem C14_selector_index_invariant_witness :
    (1 ≤ 2 ∧ 2 ≤ 8 ∧ (∀ i, i < 2 → demoRun.mans i ≠ 0) ∧ demoRun.mans 2 = 0 ∧
      0 ≤ demoRun.nextman ∧ demoRun.nextman < ((2 : Nat) : Int)) ∧
    ((adcISR demoRun 100 = none ↔
      demoRun.adcState = .adcRun ∧ (maxpts : Int) ≤ demoRun.npts) ∧
    (∀ g1 e, adcISR demoRun 100 = some (g1, e) →
      0 ≤ g1.nextman ∧ g1.nextman < ((2 : Nat) : Int) ∧ g1.mans = demoRun.mans ∧
      e.tdr = demoRun.mans demoRun.nextman.toNat ∧ e.tdr ≠ 0)) :=
  ⟨⟨by decide, by decide, demoRun_codes, rfl, by decide, by decide⟩,
    C14_selector_index_invariant demoRun 100 2 (by decide) (by decide) demoRun_codes rfl
      (by decide) (by decide)⟩

/-- C16: the tick uses the received word only through its low 16 bits. Two words with
equal low 16 bits give the same tick, record and effects alike; and a tick that stores
puts the word modulo `2 ^ 16` in `adcData[npts]`, adds it to `adcSum` and adds its 32-bit
product with itself to `adcSum2`. -/
theorem C16_low_half_only (g : adsGlobals) (w1 w2 : Nat) (h : w1 % 65536 = w2 % 65536) :
    adcISR g w1 = adcISR g w2 ∧
    (g.adcState = .adcRun → 0 ≤ g.npts → g.npts < (maxpts : Int) → 0 ≤ g.nextman →
      g.nextman + 1 < 9 →
      ∃ g1 e, adcISR g w1 = some (g1, e) ∧
        e.store = some (g.npts.toNat, w1 % 65536) ∧
        g1.adcData g.npts.toNat = w1 % 65536 ∧
        g1.adcSum = roundDouble (g.adcSum + ((w1 % 65536 : Nat) : Int)) ∧
        g1.adcSum2 = roundDouble (g.adcSum2 + squareInt32 (w1 % 65536))) := by
  constructor
  · simp only [adcISR, h]
  · intro hs hp hq h0 h9
    refine ⟨_, _, adcISR_run_store g w1 hs hp hq h0 h9, rfl, ?_, rfl, rfl⟩
    show Function.update g.adcData g.npts.toNat (w1 % 65536) g.npts.toNat = _
    rw [Function.update_same]

/-- Witness of C16: the words `100` and `100 + 5 * 2 ^ 16` on the record `demoRun`. -/
theorem C16_low_half_only_witness :
    ((100 : Nat) % 65536 = 327780 % 65536 ∧ demoRun.adcState = .adcRun ∧ 0 ≤ demoRun.npts ∧
      demoRun.npts < (maxpts : Int) ∧ 0 ≤ demoRun.nextman ∧ demoRun.nextman + 1 < 9) ∧
    adcISR demoRun 100 = adcISR demoRun 327780 ∧
    ∃ g1 e, adcISR demoRun 100 = some (g1, e) ∧
      e.store = some (demoRun.npts.toNat, 100 % 65536) ∧
      g1.adcData demoRun.npts.toNat = 100 % 65536 ∧
      g1.adcSum = roundDouble (demoRun.adcSum + ((100 % 65536 : Nat) : Int)) ∧
      g1.adcSum2 = roundDouble (demoRun.adcSum2 + squareInt32 (100 % 65536)) :=
  ⟨⟨by decide, rfl, by decide, by decide, by decide, by decide⟩,
    (C16_low_half_only demoRun 100 327780 (by decide)).1,
    (C16_low_half_only demoRun 100 327780 (by decide)).2 rfl (by decide) (by decide)
      (by decide) (by decide)⟩

theorem restoreLoop_leaves (rxempty : Nat → Bool) (old : Nat) :
    ∀ (k fuel i tcr : Nat), (∀ j, j < k → rxempty (i + j) = true) →
      rxempty (i + k) = false → k + 1 ≤ fuel →
      restoreLoop rxempty old fuel i tcr = some (if k = 0 then tcr else old) := by
  intro k
  induction k with
  | zero =>
    intro fuel i tcr _ hk hf
    obtain ⟨f, rfl⟩ : ∃ f, fuel = f + 1 := ⟨fuel - 1, by omega⟩
    rw [Nat.add_zero] at hk
    simp [restoreLoop, hk]
  | succ k ih =>
    intro fuel i tcr hall hk hf
    obtain ⟨f, rfl⟩ : ∃ f, fuel = f + 1 := ⟨fuel - 1, by omega⟩
    have h0 : rxempty i = true := by simpa using hall 0 (by omega)
    rw [restoreLoop, if_pos h0,
      ih f (i + 1) old
        (fun j hj => by
          rw [Nat.add_right_comm, Nat.add_assoc]
          exact hall (j + 1) (by omega))
        (by rw [Nat.add_right_comm, Nat.add_assoc]; exact hk) (by omega)]
    simp

/-- When the first test of the loop finds the receive FIFO empty and a later one finds a
word in it, `TCR` is back at its value on entry when `readArray` returns. -/
theorem readArrayTCR_restored (framesz31 : Nat) (rxempty : Nat → Bool) (tcr k fuel : Nat)
    (hk : 1 ≤ k) (hall : ∀ j, j < k → rxempty j = true) (hclear : rxempty k = false)
    (hf : k + 1 ≤ fuel) : readArrayTCR framesz31 rxempty tcr fuel = some tcr := by
  unfold readArrayTCR
  rw [restoreLoop_leaves rxempty tcr k fuel 0 _
    (fun j hj => by rw [Nat.zero_add]; exact hall j hj)
    (by rw [Nat.zero_add]; exact hclear) hf, if_neg (by omega)]

/-- When the first test of the loop finds a word in the receive FIFO, the body is never
executed and `readArray` returns with the 32-bit frame size still in `TCR`. -/
theorem readArrayTCR_unrestored (framesz31 : Nat) (rxempty : Nat → Bool) (tcr fuel : Nat)
    (h0 : rxempty 0 = false) (hf : 1 ≤ fuel) :
    readArrayTCR framesz31 rxempty tcr fuel = some (frame32 framesz31 tcr) := by
  unfold readArrayTCR
  rw [restoreLoop_leaves rxempty tcr 0 fuel 0 _ (fun j hj => by omega) h0 hf, if_pos rfl]

/-- C15, evaluated where it fails: with `TCR = 7` on entry (8-bit frames),
`LPSPI_TCR_FRAMESZ(31) = 31` and a word in the receive FIFO when the run has ended,
`readArray` returns with `TCR = 31`: the assignment `SPI_REGS.TCR = old` is the body of
the `while` loop, which is not entered. -/
theorem C15_tcr_not_restored :
    readArrayTCR 31 (fun _ => false) 7 1 = some 31 ∧ (31 : Nat) ≠ 7 := by
  constructor
  · rw [readArrayTCR_unrestored 31 (fun _ => false) 7 1 rfl (le_refl 1)]
    decide
  · decide

/-- C17: `chanReg` is defined for every `int`. For `ch` in `0..7` it returns the code
`MAN_Ch_0` .. `MAN_Ch_7` of that channel, for `ch = 8` it returns `MAN_AUX`, and for every
other `ch`, negative or greater than `8`, it returns what `chanReg(0)` returns, `MAN_Ch_0`.
The codes are bytes, as the `uint8_t` result requires. -/
theorem C17_chanReg_total (c : ManCodes) (ch : Int) (hfit : c.Fits) :
    chanReg c 0 = c.MAN_Ch_0 ∧ chanReg c 1 = c.MAN_Ch_1 ∧ chanReg c 2 = c.MAN_Ch_2 ∧
    chanReg c 3 = c.MAN_Ch_3 ∧ chanReg c 4 = c.MAN_Ch_4 ∧ chanReg c 5 = c.MAN_Ch_5 ∧
    chanReg c 6 = c.MAN_Ch_6 ∧ chanReg c 7 = c.MAN_Ch_7 ∧ chanReg c 8 = c.MAN_AUX ∧
    (ch < 0 ∨ 8 < ch → chanReg c ch = chanReg c 0 ∧ chanReg c ch = c.MAN_Ch_0) := by
  obtain ⟨h0, h1, h2, h3, h4, h5, h6, h7, h8⟩ := hfit
  refine ⟨?_, ?_, ?_, ?_, ?_, ?_, ?_, ?_, ?_, ?_⟩
  · simpa [chanReg] using Nat.mod_eq_of_lt h0
  · simpa [chanReg] using Nat.mod_eq_of_lt h1
  · simpa [chanReg] using Nat.mod_eq_of_lt h2
  · simpa [chanReg] using Nat.mod_eq_of_lt h3
  · simpa [chanReg] using Nat.mod_eq_of_lt h4
  · simpa [chanReg] using Nat.mod_eq_of_lt h5
  · simpa [chanReg] using Nat.mod_eq_of_lt h6
  · simpa [chanReg] using Nat.mod_eq_of_lt h7
  · simpa [chanReg] using Nat.mod_eq_of_lt h8
  · intro hch
    have hc : chanReg c ch = c.MAN_Ch_0 % 256 := by
      simp only [chanReg]
      split_ifs <;> first | rfl | (exfalso; omega)
    have hz : chanReg c 0 = c.MAN_Ch_0 % 256 := by simp [chanReg]
    exact ⟨hc.trans hz.symm, hc.trans (Nat.mod_eq_of_lt h0)⟩

/-- Witness of C17: the codes of `ADS8688.h` and the channel number `-1`. -/
theorem C17_chanReg_total_witness :
    (ads8688Codes.Fits ∧ ((-1 : Int) < 0 ∨ 8 < (-1 : Int))) ∧
    (chanReg ads8688Codes 0 = 0xC0 ∧ chanReg ads8688Codes 7 = 0xDC ∧
      chanReg ads8688Codes 8 = 0xE0) ∧
    (chanReg ads8688Codes (-1) = chanReg ads8688Codes 0 ∧
      chanReg ads8688Codes (-1) = ads8688Codes.MAN_Ch_0) :=
  have hfit : ads8688Codes.Fits := by
    unfold ManCodes.Fits ads8688Codes
    decide
  ⟨⟨hfit, Or.inl (by decide)⟩,
    ⟨(C17_chanReg_total ads8688Codes (-1) hfit).1,
      (C17_chanReg_total ads8688Codes (-1) hfit).2.2.2.2.2.2.2.1,
      (C17_chanReg_total ads8688Codes (-1) hfit).2.2.2.2.2.2.2.2.1⟩,
    (C17_chanReg_total ads8688Codes (-1) hfit).2.2.2.2.2.2.2.2.2 (Or.inl (by decide))⟩

end Ads8684
